import Mathlib

/-!
Verification of the port-resolution and EEPROM-rendering core of `sfputil`
(src/sfputil/main.py), shallowly embedded in Lean.

The embedding models:
* nested Python EEPROM dictionaries as an inductive `Val` / `Dict` type
  (string keys; scalar values are kept in their `str(...)` rendering);
* `dict_to_string_pretty`, `dict_to_string_comma_separated`,
  `raw_bytes_to_string_pretty` and the surrounding per-port rendering
  loops as executable Lean functions that follow the Python control flow;
* the platform plugin (`platform_sfputil`) as an abstract record of the
  collaborator methods the rendering paths consume.

Python strings compare lexicographically by code point; that order is
reimplemented here on `String.data` so that every definition evaluates
inside the kernel.  Recursions that remove the least key of a nested
dictionary use an explicit fuel argument bounded by the structure size
`dsize`; each fueled function comes with a congruence lemma showing the
fuel is irrelevant once it is at least `dsize` of the dictionary, so the
fuel-free wrappers satisfy the expected unfolding equations.
-/
/-! ## Python string comparison (code-point lexicographic order) -/
/-- Lexicographic comparison of char lists by code point, mirroring how
Python compares the strings that `sorted(...)` orders. -/
def listCharLe : List Char → List Char → Bool
  | [], _ => true
  | _ :: _, [] => false
  | a :: as, b :: bs =>
    if a.toNat < b.toNat then true
    else if b.toNat < a.toNat then false
    else listCharLe as bs

/-- Python `s <= t` on strings: code-point lexicographic order. -/
def strLe (s t : String) : Bool := listCharLe s.data t.data

/-- Python `s < t` on strings, expressed through `strLe`. -/
def strLt (s t : String) : Bool := !(strLe t s)

/-! ## The EEPROM dictionary model

Python EEPROM dictionaries map string keys to scalars (numbers/strings)
or nested dictionaries.  A scalar is recorded in the form `str(value)`
produces, which is exactly how both renderers display it.  `Dict` is a
Python dictionary as its ordered sequence of key/value entries (a Python
dictionary never holds a key twice). -/
mutual
inductive Val where
  | scalar : String → Val
  | dict : Dict → Val
inductive Dict where
  | nil : Dict
  | cons : String → Val → Dict → Dict
end

/-- Build a `Dict` from a list of entries (used to write down concrete
dictionaries). -/
def dictOf : List (String × Val) → Dict
  | [] => .nil
  | (k, v) :: rest => .cons k v (dictOf rest)

/-- The keys of a dictionary, in entry order. -/
def keysOf : Dict → List String
  | .nil => []
  | .cons k _ rest => k :: keysOf rest

/-- Python `sorted(in_dict)[0]`: the least key of the dictionary, or
`none` when the dictionary is empty (the sources test `len(in_dict) == 0`
before indexing). -/
def minKey? : Dict → Option String
  | .nil => none
  | .cons k _ rest =>
    match minKey? rest with
    | none => some k
    | some m => some (if strLe k m then k else m)

/-- Python `in_dict[key]`. -/
def lookupD : Dict → String → Option Val
  | .nil, _ => none
  | .cons a v rest, key => if key = a then some v else lookupD rest key

/-- Python `{i: in_dict[i] for i in in_dict if i != key}`: the dictionary
with the entry at `key` dropped, other entries kept in order. -/
def removeKey : Dict → String → Dict
  | .nil, _ => .nil
  | .cons a v rest, key => if a = key then removeKey rest key else .cons a v (removeKey rest key)

/-- Python `'\t' * indent`. -/
def tabs (indent : Nat) : String := String.mk (List.replicate indent '\t')

mutual
/-- Structure size of a value, the termination measure of the recursive
renderers. -/
def vsize : Val → Nat
  | .scalar _ => 1
  | .dict d => 1 + dsize d
/-- Structure size of a dictionary, the termination measure of the
recursive renderers. -/
def dsize : Dict → Nat
  | .nil => 1
  | .cons _ v rest => 1 + vsize v + dsize rest
end

/-! ## `dict_to_string_pretty` (multi-line renderer)

Source (src/sfputil/main.py, lines 57-69): if the dictionary is empty
return `""`; otherwise take `key = sorted(in_dict)[0]`, render
`"\t"*indent + key + ":\n"` followed by the recursive rendering of a
nested dictionary value at `indent + 1`, or `"\t"*indent + key + ": " +
str(val) + "\n"` for a scalar value, then recurse on the dictionary
without `key` at the same indent.  The fuel argument only bounds the
recursion depth; `prettyF_congr` shows that any fuel of at least
`dsize in_dict` gives the same result, so the fuel-free wrapper
`dict_to_string_pretty` satisfies the expected unfolding equations. -/
def prettyF : Nat → Dict → Nat → String
  | 0, _, _ => ""
  | n + 1, in_dict, indent =>
    match minKey? in_dict with
    | none => ""
    | some key =>
      match lookupD in_dict key with
      | none => ""
      | some val =>
        (match val with
         | .dict sub => tabs indent ++ key ++ ":\n" ++ prettyF n sub (indent + 1)
         | .scalar s => tabs indent ++ key ++ ": " ++ s ++ "\n")
        ++ prettyF n (removeKey in_dict key) indent

def dict_to_string_pretty (in_dict : Dict) (indent : Nat) : String :=
  prettyF (dsize in_dict) in_dict indent

/-! ## `dict_to_string_comma_separated` (one-line renderer)

Source (src/sfputil/main.py, lines 73-97).  Faithful points worth
noting, all visible in the Python text:
* `if key in key_blacklist: return ""` returns the empty string for the
  WHOLE remaining recursion at this level, so an excluded minimal key
  silently drops every later key of the same dictionary as well;
* the blacklist test compares the bare key, not the dot-composed name;
* a nested dictionary value recurses with element prefix `key + '.'`
  (only the immediate parent key, not the accumulated path);
* after the first processed key `first` is `False` in both branches of
  the `if not first` statement, so the tail recursion always receives
  `False`. -/
def dtscsF : Nat → Dict → List String → String → Bool → String
  | 0, _, _, _, _ => ""
  | n + 1, in_dict, key_blacklist, pfx, first =>
    match minKey? in_dict with
    | none => ""
    | some key =>
      match lookupD in_dict key with
      | none => ""
      | some val =>
        if key_blacklist.contains key then ""
        else
          (if !first then "," else "")
          ++ (match val with
              | .dict sub => dtscsF n sub key_blacklist (key ++ ".") true
              | .scalar s => pfx ++ key ++ ":" ++ s)
          ++ dtscsF n (removeKey in_dict key) key_blacklist pfx false

def dict_to_string_comma_separated (in_dict : Dict) (key_blacklist : List String)
    (pfx : String) (first : Bool) : String :=
  dtscsF (dsize in_dict) in_dict key_blacklist pfx first

/-! ## Specification-side traversal functions

The spec describes both renderers as iterating the entries of every
dictionary level in ascending key order.  `sortEntries` produces that
ordered view (it repeatedly extracts the least key, exactly the
"repeatedly removing the lexicographically-least key" scheme the
renderers implement, and sorts nested dictionary values recursively);
`prettySpec` and `onelineSpec` are the straightforward single-pass
renderers over an already-ordered dictionary.  `truncS` cuts an ordered
dictionary at the first excluded key of every level, which is the view
of the input that `dict_to_string_comma_separated` actually renders.
`allKeysD` collects every key at every level; `sortedDeepD` checks that
every level is strictly ascending. -/
def sortEntriesF : Nat → Dict → Dict
  | 0, _ => .nil
  | n + 1, d =>
    match minKey? d with
    | none => .nil
    | some key =>
      match lookupD d key with
      | none => .nil
      | some val =>
        .cons key
          (match val with
           | .dict sub => .dict (sortEntriesF n sub)
           | .scalar s => .scalar s)
          (sortEntriesF n (removeKey d key))

/-- The ascending-key ordered view of a dictionary (recursively at every
level). -/
def sortEntries (d : Dict) : Dict := sortEntriesF (dsize d) d

mutual
/-- Multi-line rendering of an already-ordered dictionary: one
`key: value` line per scalar entry, a `key:` header line plus an
indented block per nested dictionary entry. -/
def prettySpec : Dict → Nat → String
  | .nil, _ => ""
  | .cons k v rest, indent =>
    prettySpecVal k v indent ++ prettySpec rest indent
/-- The lines contributed by one entry of `prettySpec`. -/
def prettySpecVal (k : String) (v : Val) (indent : Nat) : String :=
  match v with
  | .scalar s => tabs indent ++ k ++ ": " ++ s ++ "\n"
  | .dict sub => tabs indent ++ k ++ ":\n" ++ prettySpec sub (indent + 1)
end

mutual
/-- One-line rendering of an already-ordered dictionary: `name:value`
elements joined by commas, a nested dictionary contributing its own
rendering prefixed by `key + "."`. -/
def onelineSpec : Dict → String → Bool → String
  | .nil, _, _ => ""
  | .cons k v rest, pfx, first =>
    (if !first then "," else "") ++ onelineSpecVal k v pfx ++ onelineSpec rest pfx false
/-- The element contributed by one entry of `onelineSpec`. -/
def onelineSpecVal (k : String) (v : Val) (pfx : String) : String :=
  match v with
  | .scalar s => pfx ++ k ++ ":" ++ s
  | .dict sub => onelineSpec sub (k ++ ".") true
end

mutual
/-- Cut an ordered dictionary at the first key of the exclusion list at
every level: the entries `dict_to_string_comma_separated` renders. -/
def truncS : Dict → List String → Dict
  | .nil, _ => .nil
  | .cons k v rest, bl =>
    if bl.contains k then .nil
    else .cons k (truncSVal v bl) (truncS rest bl)
/-- Action of `truncS` on one entry value. -/
def truncSVal : Val → List String → Val
  | .scalar s, _ => .scalar s
  | .dict sub, bl => .dict (truncS sub bl)
end

mutual
/-- All keys of a dictionary, at every nesting level. -/
def allKeysD : Dict → List String
  | .nil => []
  | .cons k v rest => k :: (allKeysV v ++ allKeysD rest)
/-- All keys occurring inside a value. -/
def allKeysV : Val → List String
  | .scalar _ => []
  | .dict sub => allKeysD sub
end

mutual
/-- Keys strictly ascending (code-point lexicographic) at every nesting
level of a dictionary. -/
def sortedDeepD : Dict → Bool
  | .nil => true
  | .cons k v rest =>
    (keysOf rest).all (fun x => strLt k x) && sortedDeepV v && sortedDeepD rest
/-- Check of `sortedDeepD` inside a value. -/
def sortedDeepV : Val → Bool
  | .scalar _ => true
  | .dict sub => sortedDeepD sub
end

/-! ## `raw_bytes_to_string_pretty` (raw hex renderer)

Source (src/sfputil/main.py, lines 40-53): an indexed loop over the byte
tokens; before token `i` it appends `" "` when `i > 0 and i % 8 == 0`
and `"\n"` when `i > 0 and i % 16 == 0`, then the token and a space.
`raw_render_from i bs` is the loop from index `i` onwards with the
accumulator made implicit by concatenation. -/
def raw_render_from (i : Nat) : List String → String
  | [] => ""
  | b :: rest =>
    (if i > 0 ∧ i % 8 = 0 then " " else "")
    ++ (if i > 0 ∧ i % 16 = 0 then "\n" else "")
    ++ b ++ " " ++ raw_render_from (i + 1) rest

def raw_bytes_to_string_pretty (raw_bytes : List String) : String :=
  raw_render_from 0 raw_bytes

/-- Concatenation of a list of strings. -/
def concatAll : List String → String
  | [] => ""
  | s :: rest => s ++ concatAll rest

/-- Pair every element with its 0-based position starting at `i`. -/
def withIdx (i : Nat) : List String → List (Nat × String)
  | [] => []
  | b :: rest => (i, b) :: withIdx (i + 1) rest

/-- Whitespace characters the raw renderer inserts between hex tokens. -/
def isWSChar (c : Char) : Bool := c == ' ' || c == '\n'

/-- Split a character list into maximal runs of non-whitespace characters
(`acc` holds the current run, reversed). -/
def wordsAux : List Char → List Char → List (List Char)
  | [], acc => if acc.isEmpty then [] else [acc.reverse]
  | c :: rest, acc =>
    if isWSChar c then
      if acc.isEmpty then wordsAux rest [] else acc.reverse :: wordsAux rest []
    else wordsAux rest (c :: acc)

/-- The whitespace-separated tokens of a string. -/
def tokensOf (s : String) : List String := (wordsAux s.data []).map String.mk

/-- A byte token as the renderer expects it: nonempty and free of the
separator characters. -/
def cleanToken (b : String) : Bool :=
  !b.data.isEmpty && b.data.all (fun c => !isWSChar c)

/-! ## The platform collaborator and port resolution

`platform_sfputil` is the platform plugin instance; only the methods the
rendering paths consume are modelled, as an abstract record of total
functions.  Physical ports are Python ints.  A fetched EEPROM record has
the shape `{'interface': {'data': ...}, 'dom': {'data': ...}}`; the
rendering code reads `eeprom_dict.get('interface').get('data')`
unconditionally and guards both `get('dom')` and its `get('data')`
against `None`, so the record is modelled with a mandatory
`interface_data` and a doubly-optional `dom_data`. -/
structure EepromRecord where
  interface_data : Dict
  dom_data : Option (Option Dict)

structure Platform where
  is_logical_port : String → Bool
  get_logical_to_physical : String → List Int
  get_presence : Int → Bool
  get_eeprom_dict : Int → Option EepromRecord

/-- The one Python exception the modelled paths can raise:
`int(port_name)` on a non-integer string. -/
inductive PyExn where
  | valueError
deriving DecidableEq

/-- Whitespace stripped by Python `int(str)`. -/
def isPySpace (c : Char) : Bool := c == ' ' || c == '\t' || c == '\n' || c == '\r'

/-- Value of a nonempty all-digit character run. -/
def digitsVal? (l : List Char) : Option Nat :=
  if l.isEmpty || !l.all Char.isDigit then none
  else some (l.foldl (fun a c => a * 10 + (c.toNat - 48)) 0)

/-- Python `int(s)` on a string: surrounding whitespace stripped, an
optional sign, then decimal digits; anything else raises `ValueError`
(`none` here).  Underscores between digits, which Python also accepts,
are not modelled; no port identifier uses them. -/
def pyInt? (s : String) : Option Int :=
  let t := ((s.data.dropWhile isPySpace).reverse.dropWhile isPySpace).reverse
  match t with
  | '-' :: ds => (digitsVal? ds).map (fun n => -(n : Int))
  | '+' :: ds => (digitsVal? ds).map (fun n => (n : Int))
  | ds => (digitsVal? ds).map (fun n => (n : Int))

/-- Python `port_name.startswith("Ethernet")`-style test. -/
def startswith (s pre : String) : Bool := pre.data.isPrefixOf s.data

/-- Resolver `logical_port_name_to_physical_port_list` (lines 124-132): a name
matching the `Ethernet` convention is resolved through the port table
(`None`, modelled `.ok none`, with an error echo when unknown); any
other name is passed to `int(...)` and returned as a one-element list,
which raises `ValueError` for a non-integer name. -/
def logical_port_name_to_physical_port_list (env : Platform) (port_name : String) :
    Except PyExn (Option (List Int)) :=
  if startswith port_name "Ethernet" then
    if env.is_logical_port port_name then .ok (some (env.get_logical_to_physical port_name))
    else .ok none
  else
    match pyInt? port_name with
    | some n => .ok (some [n])
    | none => .error .valueError

/-- Python `==` between a `str` and an `int` is always `False`; the
source compares `logical_port == physical_port` with a string on the
left and the loop counter (an int) on the right, so the first branch of
`get_physical_port_name` never fires at its call sites. -/
def py_str_eq_int (_s : String) (_n : Int) : Bool := false

/-- Source function `get_physical_port_name` (lines 115-121). -/
def get_physical_port_name (logical_port : String) (physical_port : Int) (ganged : Bool) :
    String :=
  if py_str_eq_int logical_port physical_port then logical_port
  else if ganged then logical_port ++ ":" ++ toString physical_port ++ " (ganged)"
  else logical_port

/-- Source function `get_sfp_eeprom_status_string` (lines 103-107). -/
def get_sfp_eeprom_status_string (port : String) (port_sfp_eeprom_status : Bool) : String :=
  if port_sfp_eeprom_status then port ++ ": SFP EEPROM detected"
  else port ++ ": SFP EEPROM not detected"

/-- The presence-gated fetch both EEPROM renderers start a lane with:
`eeprom_dict = None` when presence is false, else `get_eeprom_dict`. -/
def presence_gated_eeprom (env : Platform) (physical_port : Int) : Option EepromRecord :=
  if env.get_presence physical_port = false then none
  else env.get_eeprom_dict physical_port

/-- One lane's block of `port_eeprom_data_string_pretty` (the body of
the loop at lines 153-177, without the trailing blank line). -/
def pretty_lane_block (env : Platform) (logical_port_name : String) (ganged dump_dom : Bool)
    (i physical_port : Int) : String :=
  let port_name := get_physical_port_name logical_port_name i ganged
  match presence_gated_eeprom env physical_port with
  | some eeprom_dict =>
    get_sfp_eeprom_status_string port_name true ++ "\n"
      ++ dict_to_string_pretty eeprom_dict.interface_data 1
      ++ (if dump_dom then
            match eeprom_dict.dom_data with
            | some (some dom_data_dict) => dict_to_string_pretty dom_data_dict 1
            | _ => ""
          else "")
  | none => get_sfp_eeprom_status_string port_name false ++ "\n"

/-- The lane loop of `port_eeprom_data_string_pretty`.  The source's
`return result` statement sits INSIDE the `for` body (line 180), so the
loop returns during its first iteration and the remaining lanes are
never visited; when the lane list is empty the loop never runs and the
function falls through to Python's implicit `None`. -/
def pretty_loop (env : Platform) (logical_port_name : String) (ganged dump_dom : Bool) :
    List Int → Int → String → Option String
  | [], _, _ => none
  | physical_port :: _, i, result =>
    some (result ++ pretty_lane_block env logical_port_name ganged dump_dom i physical_port
      ++ "\n")

/-- Source function `port_eeprom_data_string_pretty` (lines 140-180): `.ok (some "")`
is the explicit `return ""` of the invalid-port path (after an error
echo); a `ValueError` from the resolver propagates. -/
def port_eeprom_data_string_pretty (env : Platform) (logical_port_name : String)
    (dump_dom : Bool) : Except PyExn (Option String) :=
  match logical_port_name_to_physical_port_list env logical_port_name with
  | .error e => .error e
  | .ok none => .ok (some "")
  | .ok (some physical_port_list) =>
    .ok (pretty_loop env logical_port_name (decide (physical_port_list.length > 1)) dump_dom
      physical_port_list 1 "")

/-- One lane's contribution to the one-line rendering (lines 208-221):
nothing at all for an undetected lane, otherwise `port:<name>,` followed
by the flattened interface data and, on request, the flattened DOM
data. -/
def oneline_lane_string (env : Platform) (logical_port_name : String) (ganged dump_dom : Bool)
    (ifdata_blacklist domdata_blacklist : List String) (i physical_port : Int) : String :=
  match presence_gated_eeprom env physical_port with
  | some eeprom_dict =>
    "port:" ++ get_physical_port_name logical_port_name i ganged ++ ","
      ++ dict_to_string_comma_separated eeprom_dict.interface_data ifdata_blacklist "" true
      ++ (if dump_dom then
            match eeprom_dict.dom_data with
            | some (some dom_data_dict) =>
              dict_to_string_comma_separated dom_data_dict domdata_blacklist "" true
            | _ => ""
          else "")
  | none => ""

/-- The lane loop of `port_eeprom_data_string_pretty_oneline`: note the
`result += "\n"` at line 222 is inside the loop and outside the
detection test, so EVERY lane appends a newline, detected or not. -/
def oneline_loop (env : Platform) (logical_port_name : String) (ganged dump_dom : Bool)
    (ifdata_blacklist domdata_blacklist : List String) :
    List Int → Int → String → String
  | [], _, result => result
  | physical_port :: rest, i, result =>
    oneline_loop env logical_port_name ganged dump_dom ifdata_blacklist domdata_blacklist rest
      (i + 1)
      (result
        ++ oneline_lane_string env logical_port_name ganged dump_dom ifdata_blacklist
          domdata_blacklist i physical_port
        ++ "\n")

/-- Source function `port_eeprom_data_string_pretty_oneline` (lines 185-225). -/
def port_eeprom_data_string_pretty_oneline (env : Platform) (logical_port_name : String)
    (ifdata_blacklist domdata_blacklist : List String) (dump_dom : Bool) :
    Except PyExn String :=
  match logical_port_name_to_physical_port_list env logical_port_name with
  | .error e => .error e
  | .ok none => .ok ""
  | .ok (some physical_port_list) =>
    .ok (oneline_loop env logical_port_name (decide (physical_port_list.length > 1)) dump_dom
      ifdata_blacklist domdata_blacklist physical_port_list 1 "")

/-- Pair every lane with its 1-based position `i`, as the loops count. -/
def laneIdxFrom : Int → List Int → List (Int × Int)
  | _, [] => []
  | i, physical_port :: rest => (i, physical_port) :: laneIdxFrom (i + 1) rest

/-- The display names the rendering loops generate for a logical port:
the `i` counter starts at 1 and `ganged` is set when the port resolves
to more than one lane. -/
def display_names (logical_port_name : String) (physical_port_list : List Int) : List String :=
  (laneIdxFrom 1 physical_port_list).map
    (fun q => get_physical_port_name logical_port_name q.1
      (decide (physical_port_list.length > 1)))

/-! ## Claim theorems -/
/-- Concrete two-entry dictionary used to exhibit the exclusion cut. -/
def exclusionPair : Dict := dictOf [("A", .scalar "1"), ("B", .scalar "2")]

/-- The spec's worked one-line example input:
`{"VendorName": "ACME", "Temp": {"High": 70, "Low": -5}}`. -/
def vendorTempRecord : Dict :=
  dictOf [("VendorName", .scalar "ACME"),
          ("Temp", .dict (dictOf [("High", .scalar "70"), ("Low", .scalar "-5")]))]

/-- A platform with one logical port `Ethernet0` of two lanes, both
without a detected module. -/
def envTwoAbsent : Platform :=
  ⟨fun s => s == "Ethernet0", fun _ => [1, 2], fun _ => false, fun _ => none⟩

/-- A platform whose port table knows only `Ethernet0`, with two
lanes. -/
def envResolver : Platform :=
  ⟨fun s => s == "Ethernet0", fun _ => [7, 8], fun _ => false, fun _ => none⟩

/-- A platform where `Ethernet0` resolves to no lanes at all and every
other logical port to one lane. -/
def envEmptyLanes : Platform :=
  ⟨fun _ => true, fun s => if s == "Ethernet0" then [] else [3], fun _ => false, fun _ => none⟩

theorem char_toNat_inj {a b : Char} (h : a.toNat = b.toNat) : a = b := by
  have h2 := congrArg Char.ofNat h
  rwa [Char.ofNat_toNat, Char.ofNat_toNat] at h2

theorem listCharLe_refl : ∀ l, listCharLe l l = true := by
  intro l
  induction l with
  | nil => rfl
  | cons a as ih => simp [listCharLe, ih]

theorem listCharLe_total : ∀ l m, listCharLe l m = true ∨ listCharLe m l = true := by
  intro l
  induction l with
  | nil => intro m; exact Or.inl rfl
  | cons a as ih =>
    intro m
    cases m with
    | nil => exact Or.inr rfl
    | cons b bs =>
      by_cases hab : a.toNat < b.toNat
      · left; simp [listCharLe, hab]
      · by_cases hba : b.toNat < a.toNat
        · right; simp [listCharLe, hba]
        · have heq : a = b := char_toNat_inj (by omega)
          subst heq
          rcases ih bs with h | h
          · left; simp [listCharLe, h]
          · right; simp [listCharLe, h]

theorem listCharLe_antisymm : ∀ l m, listCharLe l m = true → listCharLe m l = true → l = m := by
  intro l
  induction l with
  | nil =>
    intro m _ hml
    cases m with
    | nil => rfl
    | cons b bs => simp [listCharLe] at hml
  | cons a as ih =>
    intro m hlm hml
    cases m with
    | nil => simp [listCharLe] at hlm
    | cons b bs =>
      by_cases hab : a.toNat < b.toNat
      · simp [listCharLe, hab] at hml
        omega
      · by_cases hba : b.toNat < a.toNat
        · simp [listCharLe, hab, hba] at hlm
        · have heq : a = b := char_toNat_inj (by omega)
          subst heq
          simp [listCharLe, hab] at hlm hml
          rw [ih bs hlm hml]

theorem listCharLe_trans :
    ∀ l m n, listCharLe l m = true → listCharLe m n = true → listCharLe l n = true := by
  intro l
  induction l with
  | nil => intro m n _ _; rfl
  | cons a as ih =>
    intro m n hlm hmn
    cases m with
    | nil => simp [listCharLe] at hlm
    | cons b bs =>
      cases n with
      | nil => simp [listCharLe] at hmn
      | cons c cs =>
        by_cases hab : a.toNat < b.toNat
        · by_cases hbc : b.toNat < c.toNat
          · simp [listCharLe]; omega
          · by_cases hcb : c.toNat < b.toNat
            · simp [listCharLe, hbc, hcb] at hmn
            · have hbceq : b = c := char_toNat_inj (by omega)
              rw [← hbceq]
              simp [listCharLe]; omega
        · by_cases hba : b.toNat < a.toNat
          · simp [listCharLe, hab, hba] at hlm
          · have habeq : a = b := char_toNat_inj (by omega)
            rw [← habeq] at hmn
            simp [listCharLe, hab, hba] at hlm
            by_cases hac : a.toNat < c.toNat
            · simp [listCharLe, hac]
            · by_cases hca : c.toNat < a.toNat
              · simp [listCharLe, hac, hca] at hmn
              · have haceq : a = c := char_toNat_inj (by omega)
                rw [← haceq]
                simp [listCharLe, hac, hca] at hmn ⊢
                exact ih bs cs hlm hmn

theorem strLe_refl (s : String) : strLe s s = true := listCharLe_refl s.data

theorem strLe_total (s t : String) : strLe s t = true ∨ strLe t s = true :=
  listCharLe_total s.data t.data

theorem strLe_antisymm {s t : String} (h1 : strLe s t = true) (h2 : strLe t s = true) : s = t := by
  cases s with
  | mk ds =>
    cases t with
    | mk dt => exact congrArg String.mk (listCharLe_antisymm ds dt h1 h2)

theorem strLe_trans {s t u : String} (h1 : strLe s t = true) (h2 : strLe t u = true) :
    strLe s u = true := listCharLe_trans s.data t.data u.data h1 h2

theorem strLt_of_le_of_ne {s t : String} (h1 : strLe s t = true) (h2 : s ≠ t) :
    strLt s t = true := by
  unfold strLt
  cases hts : strLe t s with
  | false => rfl
  | true => exact absurd (strLe_antisymm h1 hts) h2

/-- Induction along the entry spine of a dictionary (the values are not
descended into; deep recursions are handled by strong induction on
`dsize` instead). -/
theorem dict_ind {P : Dict → Prop} (nil : P .nil)
    (cons : ∀ a v rest, P rest → P (.cons a v rest)) : ∀ d, P d :=
  fun d => @Dict.rec (fun _ => True) P (fun _ => trivial) (fun _ _ => trivial)
    nil (fun a v rest _ hr => cons a v rest hr) d

/-- Strong induction on the structure size of a dictionary. -/
theorem dict_strong_ind {P : Dict → Prop}
    (step : ∀ d, (∀ e, dsize e < dsize d → P e) → P d) : ∀ d, P d := by
  have key : ∀ n d, dsize d < n → P d := by
    intro n
    induction n with
    | zero => intro d h; exact absurd h (Nat.not_lt_zero _)
    | succ n ihn => intro d h; exact step d (fun e he => ihn e (by omega))
  intro d
  exact key (dsize d + 1) d (by omega)

/-! ### Basic facts about `minKey?`, `removeKey`, `lookupD` and `dsize` -/
theorem minKey?_eq_none {d : Dict} (h : minKey? d = none) : d = .nil := by
  cases d with
  | nil => rfl
  | cons k v rest =>
    unfold minKey? at h
    cases hr : minKey? rest <;> simp [hr] at h

theorem minKey?_mem {d : Dict} {k : String} (h : minKey? d = some k) : k ∈ keysOf d := by
  induction d using dict_ind generalizing k with
  | nil => simp [minKey?] at h
  | cons a v rest ih =>
    simp only [keysOf, List.mem_cons]
    unfold minKey? at h
    cases hr : minKey? rest with
    | none =>
      rw [hr] at h
      simp at h
      exact Or.inl h.symm
    | some m =>
      rw [hr] at h
      simp at h
      by_cases hle : strLe a m = true
      · simp [hle] at h
        exact Or.inl h.symm
      · simp [hle] at h
        exact Or.inr (h ▸ ih hr)

theorem minKey?_le {d : Dict} {k : String} (h : minKey? d = some k) :
    ∀ x ∈ keysOf d, strLe k x = true := by
  induction d using dict_ind generalizing k with
  | nil => simp [keysOf]
  | cons a v rest ih =>
    intro x hx
    simp only [keysOf, List.mem_cons] at hx
    unfold minKey? at h
    cases hr : minKey? rest with
    | none =>
      have hrest : rest = .nil := minKey?_eq_none hr
      subst hrest
      rw [hr] at h
      simp at h
      rcases hx with hx | hx
      · subst h; subst hx; exact strLe_refl _
      · simp [keysOf] at hx
    | some m =>
      rw [hr] at h
      simp at h
      by_cases hle : strLe a m = true
      · simp [hle] at h
        subst h
        rcases hx with hx | hx
        · subst hx; exact strLe_refl _
        · exact strLe_trans hle (ih hr x hx)
      · simp [hle] at h
        subst h
        rcases hx with hx | hx
        · rw [hx]
          rcases strLe_total a m with h1 | h1
          · exact absurd h1 hle
          · exact h1
        · exact ih hr x hx

theorem lookupD_of_mem {d : Dict} {k : String} (h : k ∈ keysOf d) :
    ∃ v, lookupD d k = some v := by
  induction d using dict_ind with
  | nil => simp [keysOf] at h
  | cons a v rest ih =>
    simp only [keysOf, List.mem_cons] at h
    by_cases hk : k = a
    · exact ⟨v, by rw [lookupD, if_pos hk]⟩
    · rcases h with h | h
      · exact absurd h hk
      · obtain ⟨w, hw⟩ := ih h
        exact ⟨w, by rw [lookupD, if_neg hk]; exact hw⟩

theorem dsize_pos (d : Dict) : 0 < dsize d := by
  cases d <;> simp [dsize]

theorem vsize_pos (v : Val) : 0 < vsize v := by
  cases v <;> simp [vsize]

theorem lookupD_vsize {d : Dict} {k : String} {v : Val} (h : lookupD d k = some v) :
    vsize v < dsize d := by
  induction d using dict_ind with
  | nil => simp [lookupD] at h
  | cons a w rest ih =>
    rw [lookupD] at h
    by_cases hk : k = a
    · rw [if_pos hk] at h
      simp at h
      subst h
      have := dsize_pos rest
      simp [dsize]
      omega
    · rw [if_neg hk] at h
      have := ih h
      have := vsize_pos w
      simp [dsize]
      omega

theorem removeKey_dsize_le (d : Dict) (k : String) : dsize (removeKey d k) ≤ dsize d := by
  induction d using dict_ind with
  | nil => simp [removeKey]
  | cons a v rest ih =>
    rw [removeKey]
    by_cases hk : a = k
    · rw [if_pos hk]
      have := vsize_pos v
      simp [dsize]
      omega
    · rw [if_neg hk]
      simp [dsize]
      omega

theorem removeKey_dsize_lt {d : Dict} {k : String} (h : k ∈ keysOf d) :
    dsize (removeKey d k) < dsize d := by
  induction d using dict_ind with
  | nil => simp [keysOf] at h
  | cons a v rest ih =>
    simp only [keysOf, List.mem_cons] at h
    rw [removeKey]
    by_cases hk : a = k
    · rw [if_pos hk]
      have h1 := removeKey_dsize_le rest k
      have h2 := vsize_pos v
      simp [dsize]
      omega
    · rw [if_neg hk]
      rcases h with h | h
      · exact absurd h.symm hk
      · have := ih h
        simp [dsize]
        omega

theorem mem_keysOf_removeKey {d : Dict} {k x : String} (h : x ∈ keysOf (removeKey d k)) :
    x ∈ keysOf d ∧ x ≠ k := by
  induction d using dict_ind with
  | nil => simp [removeKey, keysOf] at h
  | cons a v rest ih =>
    rw [removeKey] at h
    simp only [keysOf, List.mem_cons]
    by_cases hk : a = k
    · rw [if_pos hk] at h
      have := ih h
      exact ⟨Or.inr this.1, this.2⟩
    · rw [if_neg hk] at h
      simp only [keysOf, List.mem_cons] at h
      rcases h with h | h
      · subst h
        exact ⟨Or.inl rfl, hk⟩
      · have := ih h
        exact ⟨Or.inr this.1, this.2⟩

theorem prettyF_congr :
    ∀ n m d indent, dsize d ≤ n → dsize d ≤ m → prettyF n d indent = prettyF m d indent := by
  intro n
  induction n with
  | zero =>
    intro m d indent hn _
    have := dsize_pos d
    omega
  | succ n ih =>
    intro m d indent hn hm
    have hdpos := dsize_pos d
    obtain ⟨m', rfl⟩ : ∃ m', m = m' + 1 := ⟨m - 1, by omega⟩
    cases hk : minKey? d with
    | none => simp only [prettyF, hk]
    | some key =>
      obtain ⟨val, hv⟩ := lookupD_of_mem (minKey?_mem hk)
      have hrem : dsize (removeKey d key) < dsize d := removeKey_dsize_lt (minKey?_mem hk)
      cases val with
      | scalar s =>
        simp only [prettyF, hk, hv]
        rw [ih m' (removeKey d key) indent (by omega) (by omega)]
      | dict sub =>
        have hsub : dsize sub < dsize d := by
          have := lookupD_vsize hv
          simp [vsize] at this
          omega
        simp only [prettyF, hk, hv]
        rw [ih m' sub (indent + 1) (by omega) (by omega),
            ih m' (removeKey d key) indent (by omega) (by omega)]

theorem dict_to_string_pretty_nil (indent : Nat) : dict_to_string_pretty .nil indent = "" := rfl

theorem dict_to_string_pretty_step {d : Dict} {key : String} {val : Val} (indent : Nat)
    (hm : minKey? d = some key) (hv : lookupD d key = some val) :
    dict_to_string_pretty d indent =
      (match val with
       | .dict sub => tabs indent ++ key ++ ":\n" ++ dict_to_string_pretty sub (indent + 1)
       | .scalar s => tabs indent ++ key ++ ": " ++ s ++ "\n")
      ++ dict_to_string_pretty (removeKey d key) indent := by
  unfold dict_to_string_pretty
  have hpos := dsize_pos d
  have hrem := removeKey_dsize_lt (minKey?_mem hm)
  obtain ⟨n, hn⟩ : ∃ n, dsize d = n + 1 := ⟨dsize d - 1, by omega⟩
  rw [hn]
  cases val with
  | scalar s =>
    simp only [prettyF, hm, hv]
    rw [prettyF_congr n (dsize (removeKey d key)) (removeKey d key) indent
      (by omega) (by omega)]
  | dict sub =>
    have hsub : dsize sub < dsize d := by
      have := lookupD_vsize hv
      simp [vsize] at this
      omega
    simp only [prettyF, hm, hv]
    rw [prettyF_congr n (dsize sub) sub (indent + 1) (by omega) (by omega),
        prettyF_congr n (dsize (removeKey d key)) (removeKey d key) indent
          (by omega) (by omega)]

theorem dtscsF_congr :
    ∀ n m d bl pfx first, dsize d ≤ n → dsize d ≤ m →
      dtscsF n d bl pfx first = dtscsF m d bl pfx first := by
  intro n
  induction n with
  | zero =>
    intro m d bl pfx first hn _
    have := dsize_pos d
    omega
  | succ n ih =>
    intro m d bl pfx first hn hm
    have hdpos := dsize_pos d
    obtain ⟨m', rfl⟩ : ∃ m', m = m' + 1 := ⟨m - 1, by omega⟩
    cases hk : minKey? d with
    | none => simp only [dtscsF, hk]
    | some key =>
      obtain ⟨val, hv⟩ := lookupD_of_mem (minKey?_mem hk)
      have hrem : dsize (removeKey d key) < dsize d := removeKey_dsize_lt (minKey?_mem hk)
      cases val with
      | scalar s =>
        simp only [dtscsF, hk, hv]
        rw [ih m' (removeKey d key) bl pfx false (by omega) (by omega)]
      | dict sub =>
        have hsub : dsize sub < dsize d := by
          have := lookupD_vsize hv
          simp [vsize] at this
          omega
        simp only [dtscsF, hk, hv]
        rw [ih m' sub bl (key ++ ".") true (by omega) (by omega),
            ih m' (removeKey d key) bl pfx false (by omega) (by omega)]

theorem dict_to_string_comma_separated_nil (bl : List String) (pfx : String) (first : Bool) :
    dict_to_string_comma_separated .nil bl pfx first = "" := rfl

theorem dict_to_string_comma_separated_step {d : Dict} {key : String} {val : Val}
    (bl : List String) (pfx : String) (first : Bool)
    (hm : minKey? d = some key) (hv : lookupD d key = some val) :
    dict_to_string_comma_separated d bl pfx first =
      if bl.contains key then ""
      else
        (if !first then "," else "")
        ++ (match val with
            | .dict sub => dict_to_string_comma_separated sub bl (key ++ ".") true
            | .scalar s => pfx ++ key ++ ":" ++ s)
        ++ dict_to_string_comma_separated (removeKey d key) bl pfx false := by
  unfold dict_to_string_comma_separated
  have hpos := dsize_pos d
  have hrem := removeKey_dsize_lt (minKey?_mem hm)
  obtain ⟨n, hn⟩ : ∃ n, dsize d = n + 1 := ⟨dsize d - 1, by omega⟩
  rw [hn]
  cases val with
  | scalar s =>
    simp only [dtscsF, hm, hv]
    rw [dtscsF_congr n (dsize (removeKey d key)) (removeKey d key) bl pfx false
      (by omega) (by omega)]
  | dict sub =>
    have hsub : dsize sub < dsize d := by
      have := lookupD_vsize hv
      simp [vsize] at this
      omega
    simp only [dtscsF, hm, hv]
    rw [dtscsF_congr n (dsize sub) sub bl (key ++ ".") true (by omega) (by omega),
        dtscsF_congr n (dsize (removeKey d key)) (removeKey d key) bl pfx false
          (by omega) (by omega)]

theorem sortEntriesF_congr :
    ∀ n m d, dsize d ≤ n → dsize d ≤ m → sortEntriesF n d = sortEntriesF m d := by
  intro n
  induction n with
  | zero =>
    intro m d hn _
    have := dsize_pos d
    omega
  | succ n ih =>
    intro m d hn hm
    have hdpos := dsize_pos d
    obtain ⟨m', rfl⟩ : ∃ m', m = m' + 1 := ⟨m - 1, by omega⟩
    cases hk : minKey? d with
    | none => simp only [sortEntriesF, hk]
    | some key =>
      obtain ⟨val, hv⟩ := lookupD_of_mem (minKey?_mem hk)
      have hrem : dsize (removeKey d key) < dsize d := removeKey_dsize_lt (minKey?_mem hk)
      cases val with
      | scalar s =>
        simp only [sortEntriesF, hk, hv]
        rw [ih m' (removeKey d key) (by omega) (by omega)]
      | dict sub =>
        have hsub : dsize sub < dsize d := by
          have := lookupD_vsize hv
          simp [vsize] at this
          omega
        simp only [sortEntriesF, hk, hv]
        rw [ih m' sub (by omega) (by omega),
            ih m' (removeKey d key) (by omega) (by omega)]

theorem sortEntries_nil : sortEntries .nil = .nil := rfl

theorem sortEntries_step_scalar {d : Dict} {key s : String}
    (hm : minKey? d = some key) (hv : lookupD d key = some (.scalar s)) :
    sortEntries d = .cons key (.scalar s) (sortEntries (removeKey d key)) := by
  unfold sortEntries
  have hpos := dsize_pos d
  have hrem := removeKey_dsize_lt (minKey?_mem hm)
  obtain ⟨n, hn⟩ : ∃ n, dsize d = n + 1 := ⟨dsize d - 1, by omega⟩
  rw [hn]
  simp only [sortEntriesF, hm, hv]
  rw [sortEntriesF_congr n (dsize (removeKey d key)) (removeKey d key) (by omega) (by omega)]

theorem sortEntries_step_dict {d : Dict} {key : String} {sub : Dict}
    (hm : minKey? d = some key) (hv : lookupD d key = some (.dict sub)) :
    sortEntries d = .cons key (.dict (sortEntries sub)) (sortEntries (removeKey d key)) := by
  unfold sortEntries
  have hpos := dsize_pos d
  have hrem := removeKey_dsize_lt (minKey?_mem hm)
  have hsub : dsize sub < dsize d := by
    have := lookupD_vsize hv
    simp [vsize] at this
    omega
  obtain ⟨n, hn⟩ : ∃ n, dsize d = n + 1 := ⟨dsize d - 1, by omega⟩
  rw [hn]
  simp only [sortEntriesF, hm, hv]
  rw [sortEntriesF_congr n (dsize sub) sub (by omega) (by omega),
      sortEntriesF_congr n (dsize (removeKey d key)) (removeKey d key) (by omega) (by omega)]

/-- Size bounds for spine components, used with `dict_strong_ind`. -/
theorem dsize_cons_rest (k : String) (v : Val) (rest : Dict) :
    dsize rest < dsize (.cons k v rest) := by
  simp only [dsize]
  omega

theorem dsize_cons_dict (k : String) (sub : Dict) (rest : Dict) :
    dsize sub < dsize (.cons k (.dict sub) rest) := by
  simp only [dsize, vsize]
  omega

/-! ### The renderers factor through the ordered view

`dict_to_string_pretty` renders exactly the ascending-key ordered view
of its input; `dict_to_string_comma_separated` renders exactly the
ordered view cut at the first excluded key of every level. -/
theorem pretty_factor : ∀ d : Dict, ∀ indent,
    dict_to_string_pretty d indent = prettySpec (sortEntries d) indent := by
  apply dict_strong_ind
    (P := fun d => ∀ indent, dict_to_string_pretty d indent = prettySpec (sortEntries d) indent)
  intro d ihd indent
  cases hk : minKey? d with
  | none =>
    have hnil := minKey?_eq_none hk
    subst hnil
    rw [dict_to_string_pretty_nil, sortEntries_nil]
    rfl
  | some key =>
    obtain ⟨val, hv⟩ := lookupD_of_mem (minKey?_mem hk)
    have hrem : dsize (removeKey d key) < dsize d := removeKey_dsize_lt (minKey?_mem hk)
    cases val with
    | scalar s =>
      rw [dict_to_string_pretty_step indent hk hv, sortEntries_step_scalar hk hv]
      simp only [prettySpec, prettySpecVal]
      rw [ihd (removeKey d key) hrem indent]
    | dict sub =>
      have hsub : dsize sub < dsize d := by
        have := lookupD_vsize hv
        simp [vsize] at this
        omega
      rw [dict_to_string_pretty_step indent hk hv, sortEntries_step_dict hk hv]
      simp only [prettySpec, prettySpecVal]
      rw [ihd (removeKey d key) hrem indent, ihd sub hsub (indent + 1)]

theorem oneline_factor : ∀ d : Dict, ∀ bl pfx first,
    dict_to_string_comma_separated d bl pfx first
      = onelineSpec (truncS (sortEntries d) bl) pfx first := by
  apply dict_strong_ind
    (P := fun d => ∀ bl pfx first,
      dict_to_string_comma_separated d bl pfx first
        = onelineSpec (truncS (sortEntries d) bl) pfx first)
  intro d ihd bl pfx first
  cases hk : minKey? d with
  | none =>
    have hnil := minKey?_eq_none hk
    subst hnil
    rw [dict_to_string_comma_separated_nil, sortEntries_nil]
    rfl
  | some key =>
    obtain ⟨val, hv⟩ := lookupD_of_mem (minKey?_mem hk)
    have hrem : dsize (removeKey d key) < dsize d := removeKey_dsize_lt (minKey?_mem hk)
    cases val with
    | scalar s =>
      rw [dict_to_string_comma_separated_step bl pfx first hk hv, sortEntries_step_scalar hk hv]
      simp only [truncS, truncSVal]
      cases hb : bl.contains key with
      | true => simp [hb, onelineSpec]
      | false =>
        simp only [hb, Bool.false_eq_true, if_false, onelineSpec, onelineSpecVal]
        rw [ihd (removeKey d key) hrem bl pfx false]
    | dict sub =>
      have hsub : dsize sub < dsize d := by
        have := lookupD_vsize hv
        simp [vsize] at this
        omega
      rw [dict_to_string_comma_separated_step bl pfx first hk hv, sortEntries_step_dict hk hv]
      simp only [truncS, truncSVal]
      cases hb : bl.contains key with
      | true => simp [hb, onelineSpec]
      | false =>
        simp only [hb, Bool.false_eq_true, if_false, onelineSpec, onelineSpecVal]
        rw [ihd (removeKey d key) hrem bl pfx false, ihd sub hsub bl (key ++ ".") true]

/-- With an empty exclusion list nothing is cut. -/
theorem truncS_nil_blacklist : ∀ d : Dict, truncS d [] = d := by
  apply dict_strong_ind (P := fun d => truncS d [] = d)
  intro d ihd
  cases d with
  | nil => rfl
  | cons k v rest =>
    simp only [truncS, List.contains, List.elem_nil, Bool.false_eq_true, if_false]
    rw [ihd rest (dsize_cons_rest k v rest)]
    cases v with
    | scalar s => rfl
    | dict sub =>
      simp only [truncSVal]
      rw [ihd sub (dsize_cons_dict k sub rest)]

/-- The keys of the ordered view come from the original dictionary. -/
theorem keysOf_sortEntries_subset :
    ∀ d : Dict, ∀ x, x ∈ keysOf (sortEntries d) → x ∈ keysOf d := by
  apply dict_strong_ind (P := fun d => ∀ x, x ∈ keysOf (sortEntries d) → x ∈ keysOf d)
  intro d ihd x hx
  cases hk : minKey? d with
  | none =>
    have hnil := minKey?_eq_none hk
    subst hnil
    rw [sortEntries_nil] at hx
    exact hx
  | some key =>
    obtain ⟨val, hv⟩ := lookupD_of_mem (minKey?_mem hk)
    have hrem : dsize (removeKey d key) < dsize d := removeKey_dsize_lt (minKey?_mem hk)
    have hstep : ∃ v', sortEntries d = .cons key v' (sortEntries (removeKey d key)) := by
      cases val with
      | scalar s => exact ⟨_, sortEntries_step_scalar hk hv⟩
      | dict sub => exact ⟨_, sortEntries_step_dict hk hv⟩
    obtain ⟨v', hstep⟩ := hstep
    rw [hstep] at hx
    simp only [keysOf, List.mem_cons] at hx
    rcases hx with hx | hx
    · exact hx ▸ minKey?_mem hk
    · exact (mem_keysOf_removeKey (ihd (removeKey d key) hrem x hx)).1

/-- The ordered view is strictly ascending by key at every level. -/
theorem sortedDeep_sortEntries : ∀ d : Dict, sortedDeepD (sortEntries d) = true := by
  apply dict_strong_ind (P := fun d => sortedDeepD (sortEntries d) = true)
  intro d ihd
  cases hk : minKey? d with
  | none =>
    have hnil := minKey?_eq_none hk
    subst hnil
    rw [sortEntries_nil]
    rfl
  | some key =>
    obtain ⟨val, hv⟩ := lookupD_of_mem (minKey?_mem hk)
    have hrem : dsize (removeKey d key) < dsize d := removeKey_dsize_lt (minKey?_mem hk)
    have hkeys : ∀ x ∈ keysOf (sortEntries (removeKey d key)), strLt key x = true := by
      intro x hx
      have hx2 := keysOf_sortEntries_subset (removeKey d key) x hx
      have hx3 := mem_keysOf_removeKey hx2
      exact strLt_of_le_of_ne (minKey?_le hk x hx3.1) (Ne.symm hx3.2)
    cases val with
    | scalar s =>
      rw [sortEntries_step_scalar hk hv]
      simp only [sortedDeepD, sortedDeepV, Bool.and_eq_true, List.all_eq_true]
      exact ⟨⟨fun x hx => hkeys x hx, trivial⟩, ihd (removeKey d key) hrem⟩
    | dict sub =>
      have hsub : dsize sub < dsize d := by
        have := lookupD_vsize hv
        simp [vsize] at this
        omega
      rw [sortEntries_step_dict hk hv]
      simp only [sortedDeepD, sortedDeepV, Bool.and_eq_true, List.all_eq_true]
      exact ⟨⟨fun x hx => hkeys x hx, ihd sub hsub⟩, ihd (removeKey d key) hrem⟩

theorem truncS_cons_pos {bl : List String} {a : String} (h : bl.contains a = true)
    (v : Val) (rest : Dict) : truncS (.cons a v rest) bl = .nil := by
  have hmem : a ∈ bl := by simpa using h
  simp [truncS, hmem]

theorem truncS_cons_neg {bl : List String} {a : String} (h : bl.contains a = false)
    (v : Val) (rest : Dict) :
    truncS (.cons a v rest) bl = .cons a (truncSVal v bl) (truncS rest bl) := by
  simp only [truncS, h, Bool.false_eq_true, if_false]

/-- No excluded key survives anywhere in the cut view. -/
theorem excluded_not_in_truncS :
    ∀ d : Dict, ∀ bl : List String, ∀ k, k ∈ bl → k ∉ allKeysD (truncS d bl) := by
  apply dict_strong_ind
    (P := fun d => ∀ bl : List String, ∀ k, k ∈ bl → k ∉ allKeysD (truncS d bl))
  intro d ihd bl k hk
  cases d with
  | nil => simp [truncS, allKeysD]
  | cons a v rest =>
    cases hb : bl.contains a with
    | true => simp [truncS_cons_pos hb, allKeysD]
    | false =>
      have ha : a ∉ bl := by simpa using hb
      rw [truncS_cons_neg hb]
      simp only [allKeysD, List.mem_cons, List.mem_append, not_or]
      refine ⟨fun h => ha (h ▸ hk), ?_, ?_⟩
      · cases v with
        | scalar s => simp [truncSVal, allKeysV]
        | dict sub =>
          simp only [truncSVal, allKeysV]
          exact ihd sub (dsize_cons_dict a sub rest) bl k hk
      · exact ihd rest (dsize_cons_rest a v rest) bl k hk

theorem wordsAux_ws_skip (c : Char) (h : isWSChar c = true) (l : List Char) :
    wordsAux (c :: l) [] = wordsAux l [] := by
  simp [wordsAux, h]

theorem wordsAux_token :
    ∀ (tok acc l : List Char), (∀ c ∈ tok, isWSChar c = false) → (acc ≠ [] ∨ tok ≠ []) →
      wordsAux (tok ++ ' ' :: l) acc = (acc.reverse ++ tok) :: wordsAux l [] := by
  intro tok
  induction tok with
  | nil =>
    intro acc l _ hne
    cases acc with
    | nil =>
      rcases hne with hne | hne <;> exact absurd rfl hne
    | cons a as =>
      simp [wordsAux, isWSChar]
  | cons c tok ih =>
    intro acc l hclean hne
    have hc : isWSChar c = false := hclean c (by simp)
    have step : wordsAux ((c :: tok) ++ ' ' :: l) acc = wordsAux (tok ++ ' ' :: l) (c :: acc) := by
      simp [wordsAux, hc]
    rw [step, ih (c :: acc) l (fun x hx => hclean x (by simp [hx])) (Or.inl (by simp))]
    simp

theorem data_space_str : (" " : String).data = [' '] := rfl

theorem data_newline_str : ("\n" : String).data = ['\n'] := rfl

theorem data_empty_str : ("" : String).data = [] := rfl

theorem tokens_raw_render :
    ∀ (bs : List String) (i : Nat), (∀ b ∈ bs, cleanToken b = true) →
      wordsAux (raw_render_from i bs).data [] = bs.map String.data := by
  intro bs
  induction bs with
  | nil => intro i _; rfl
  | cons b rest ih =>
    intro i hclean
    have hb := hclean b (by simp)
    have hbne : b.data ≠ [] := by
      simp [cleanToken] at hb
      intro hempty
      rw [hempty] at hb
      simp at hb
    have hbclean : ∀ c ∈ b.data, isWSChar c = false := by
      simp [cleanToken, List.all_eq_true] at hb
      exact fun c hc => hb.2 c hc
    have ihr := ih (i + 1) (fun x hx => hclean x (by simp [hx]))
    simp only [raw_render_from, String.data_append, data_space_str, List.map_cons]
    by_cases h8 : i > 0 ∧ i % 8 = 0
    · by_cases h16 : i > 0 ∧ i % 16 = 0
      · rw [if_pos h8, if_pos h16]
        simp only [data_space_str, data_newline_str, List.append_assoc, List.cons_append,
          List.nil_append, List.singleton_append]
        rw [wordsAux_ws_skip ' ' (by decide), wordsAux_ws_skip '\n' (by decide),
            wordsAux_token b.data [] _ hbclean (Or.inr hbne), ihr]
        simp
      · rw [if_pos h8, if_neg h16]
        simp only [data_space_str, data_empty_str, List.append_assoc, List.cons_append,
          List.nil_append, List.singleton_append]
        rw [wordsAux_ws_skip ' ' (by decide),
            wordsAux_token b.data [] _ hbclean (Or.inr hbne), ihr]
        simp
    · by_cases h16 : i > 0 ∧ i % 16 = 0
      · rw [if_neg h8, if_pos h16]
        simp only [data_newline_str, data_empty_str, List.append_assoc, List.cons_append,
          List.nil_append, List.singleton_append]
        rw [wordsAux_ws_skip '\n' (by decide),
            wordsAux_token b.data [] _ hbclean (Or.inr hbne), ihr]
        simp
      · rw [if_neg h8, if_neg h16]
        simp only [data_empty_str, List.append_assoc, List.cons_append,
          List.nil_append, List.singleton_append]
        rw [wordsAux_token b.data [] _ hbclean (Or.inr hbne), ihr]
        simp

theorem tokensOf_raw {bs : List String} (h : ∀ b ∈ bs, cleanToken b = true) :
    tokensOf (raw_bytes_to_string_pretty bs) = bs := by
  unfold tokensOf raw_bytes_to_string_pretty
  rw [tokens_raw_render bs 0 h, List.map_map]
  have hid : (String.mk ∘ String.data) = id := funext fun b => rfl
  rw [hid, List.map_id]

theorem raw_join_form : ∀ (bs : List String) (i : Nat),
    raw_render_from i bs = concatAll ((withIdx i bs).map (fun p =>
      (if p.1 > 0 ∧ p.1 % 8 = 0 then " " else "")
      ++ (if p.1 > 0 ∧ p.1 % 16 = 0 then "\n" else "") ++ p.2 ++ " ")) := by
  intro bs
  induction bs with
  | nil => intro i; rfl
  | cons b rest ih =>
    intro i
    simp only [raw_render_from, withIdx, List.map_cons, concatAll]
    rw [ih (i + 1)]

theorem str_append_empty (s : String) : s ++ "" = s := by
  cases s with
  | mk l => exact congrArg String.mk (List.append_nil l)

theorem oneline_loop_join (env : Platform) (logical_port_name : String)
    (ganged dump_dom : Bool) (ifdata_blacklist domdata_blacklist : List String) :
    ∀ (lanes : List Int) (i : Int) (result : String),
      oneline_loop env logical_port_name ganged dump_dom ifdata_blacklist domdata_blacklist
          lanes i result
        = result ++ concatAll ((laneIdxFrom i lanes).map
            (fun q => oneline_lane_string env logical_port_name ganged dump_dom
              ifdata_blacklist domdata_blacklist q.1 q.2 ++ "\n")) := by
  intro lanes
  induction lanes with
  | nil =>
    intro i result
    simp only [oneline_loop, laneIdxFrom, List.map_nil, concatAll]
    exact (str_append_empty result).symm
  | cons p rest ih =>
    intro i result
    simp only [oneline_loop, laneIdxFrom, List.map_cons, concatAll]
    rw [ih (i + 1)]
    simp [String.append_assoc]

/-- C1 counterexample: with exclusion set `{"A"}` on
`{"A": 1, "B": 2}` the one-line rendering is empty, although the
non-excluded pair `B: 2` renders as `"B:2"` without the exclusion — so
an exclusion does NOT leave "every non-excluded key/value pair" in the
output. -/
theorem C1_counterexample :
    dict_to_string_comma_separated exclusionPair ["A"] "" true = ""
  ∧ dict_to_string_comma_separated exclusionPair [] "" true = "A:1,B:2" :=
  ⟨rfl, rfl⟩

/-- C1 (amended): the one-line rendering equals the plain rendering of
the input's ascending-key view cut at the first excluded key of every
level; the cut view never contains an excluded key (hence no excluded
key nor any of its descendants is rendered), but keys sorting after an
excluded key at the same level are dropped with it. -/
theorem C1_oneline_exclusion_amended :
    (∀ (d : Dict) (bl : List String) (pfx : String) (first : Bool),
        dict_to_string_comma_separated d bl pfx first
          = onelineSpec (truncS (sortEntries d) bl) pfx first)
  ∧ (∀ (d : Dict) (bl : List String) (k : String), k ∈ bl →
        k ∉ allKeysD (truncS (sortEntries d) bl)) :=
  ⟨oneline_factor, fun d bl k hk => excluded_not_in_truncS (sortEntries d) bl k hk⟩

theorem C1_witness :
    dict_to_string_comma_separated exclusionPair ["A"] "" true
      = onelineSpec (truncS (sortEntries exclusionPair) ["A"]) "" true
  ∧ "A" ∉ allKeysD (truncS (sortEntries exclusionPair) ["A"]) :=
  ⟨C1_oneline_exclusion_amended.1 exclusionPair ["A"] "" true,
   C1_oneline_exclusion_amended.2 exclusionPair ["A"] "A" (by decide)⟩

/-- C2 counterexample: the rendering of the spec's example is NOT
`"VendorName:ACME,Temp.High:70"`. -/
theorem C2_counterexample :
    dict_to_string_comma_separated vendorTempRecord ["Temp.Low"] "" true
      ≠ "VendorName:ACME,Temp.High:70" := by
  decide

/-- C2 (amended): the example input with exclusion set `{"Temp.Low"}`
renders one-line as `"Temp.High:70,Temp.Low:-5,VendorName:ACME"`:
traversal is ascending (`Temp` before `VendorName`), and the entry
`Temp.Low` excludes nothing because the code tests the bare key
(`"Low"`), never the dot-composed name. -/
theorem C2_example_amended :
    dict_to_string_comma_separated vendorTempRecord ["Temp.Low"] "" true
      = "Temp.High:70,Temp.Low:-5,VendorName:ACME" := rfl

/-- C5: the raw hex rendering keeps exactly the input tokens in order
(its whitespace-separated tokens are the input byte strings), the
separators before token `i` are an extra space at every 8th position and
a line break at every 16th, and the spec's 10-token example renders
exactly as stated. -/
theorem C5_raw_tokens :
    (∀ bs : List String, (∀ b ∈ bs, cleanToken b = true) →
        tokensOf (raw_bytes_to_string_pretty bs) = bs)
  ∧ (∀ (bs : List String) (i : Nat), raw_render_from i bs
        = concatAll ((withIdx i bs).map (fun p =>
            (if p.1 > 0 ∧ p.1 % 8 = 0 then " " else "")
            ++ (if p.1 > 0 ∧ p.1 % 16 = 0 then "\n" else "") ++ p.2 ++ " ")))
  ∧ raw_bytes_to_string_pretty ["01", "02", "03", "04", "05", "06", "07", "08", "09", "0a"]
      = "01 02 03 04 05 06 07 08  09 0a " :=
  ⟨fun _ h => tokensOf_raw h, raw_join_form, rfl⟩

theorem C5_witness :
    (∀ b ∈ ["01", "02"], cleanToken b = true)
  ∧ tokensOf (raw_bytes_to_string_pretty ["01", "02"]) = ["01", "02"] :=
  ⟨by decide, C5_raw_tokens.1 ["01", "02"] (by decide)⟩

/-- C6: lane display names: a ganged port's lane `i` is always
`"{logical}:{i} (ganged)"`, a non-ganged lane is always the logical name
unmodified, and resolving `"Ethernet0"` over lanes `[5, 6]` yields
exactly the two names of the spec's example. -/
theorem C6_display_names :
    (∀ (logical_port : String) (i : Int),
        get_physical_port_name logical_port i true
          = logical_port ++ ":" ++ toString i ++ " (ganged)")
  ∧ (∀ (logical_port : String) (i : Int),
        get_physical_port_name logical_port i false = logical_port)
  ∧ display_names "Ethernet0" [5, 6] = ["Ethernet0:1 (ganged)", "Ethernet0:2 (ganged)"] :=
  ⟨fun _ _ => rfl, fun _ _ => rfl, by decide⟩

/-- C7: both renderers traverse the same ascending-key ordered view of
the input: multi-line rendering factors through `sortEntries`, one-line
rendering (with no exclusions) factors through the same `sortEntries`,
and that view is strictly ascending by key at every nesting level. -/
theorem C7_sorted_traversal :
    (∀ (d : Dict) (indent : Nat),
        dict_to_string_pretty d indent = prettySpec (sortEntries d) indent)
  ∧ (∀ (d : Dict) (pfx : String) (first : Bool),
        dict_to_string_comma_separated d [] pfx first = onelineSpec (sortEntries d) pfx first)
  ∧ (∀ d : Dict, sortedDeepD (sortEntries d) = true) := by
  refine ⟨pretty_factor, ?_, sortedDeep_sortEntries⟩
  intro d pfx first
  rw [oneline_factor d [] pfx first, truncS_nil_blacklist]

/-- C3: in pretty multi-line mode a ganged port (two or more lanes) is
rendered as the first lane's block alone and nothing else: the `return`
inside the per-lane loop makes the function return during the first
iteration, independently of the remaining lanes. -/
theorem C3_pretty_first_lane_only (env : Platform) (logical_port_name : String)
    (dump_dom : Bool) (p q : Int) (rest : List Int)
    (hres : logical_port_name_to_physical_port_list env logical_port_name
      = .ok (some (p :: q :: rest))) :
    port_eeprom_data_string_pretty env logical_port_name dump_dom
      = .ok (some (pretty_lane_block env logical_port_name true dump_dom 1 p ++ "\n")) := by
  have hg : decide (List.length (p :: q :: rest) > 1) = true := by simp
  simp only [port_eeprom_data_string_pretty, hres]
  rw [hg]
  rfl

theorem C3_witness :
    port_eeprom_data_string_pretty envTwoAbsent "Ethernet0" false
      = .ok (some "Ethernet0:1 (ganged): SFP EEPROM not detected\n\n") :=
  (C3_pretty_first_lane_only envTwoAbsent "Ethernet0" false 1 2 [] rfl).trans rfl

/-- C4 counterexample: for the two-lane port `Ethernet0` with no module
detected on either lane, the one-line renderer emits `"\n\n"` — two
newlines for one logical port, one contributed by each absent lane — so
the output is neither one line per logical port nor free of
contributions from undetected lanes. -/
theorem C4_counterexample :
    port_eeprom_data_string_pretty_oneline envTwoAbsent "Ethernet0" [] [] false = .ok "\n\n"
  ∧ ("\n\n").data.count '\n' = 2 :=
  ⟨rfl, rfl⟩

/-- C4 (amended): lanes without a detected EEPROM emit no status line
and no content, but EVERY lane, detected or not, appends one newline:
the renderer produces one newline-terminated line per physical lane
(hence one line per logical port only for single-lane ports). -/
theorem C4_oneline_per_lane_amended :
    (∀ (env : Platform) (logical_port_name : String)
        (ifdata_blacklist domdata_blacklist : List String) (dump_dom : Bool)
        (lanes : List Int),
        logical_port_name_to_physical_port_list env logical_port_name = .ok (some lanes) →
        port_eeprom_data_string_pretty_oneline env logical_port_name ifdata_blacklist
            domdata_blacklist dump_dom
          = .ok (concatAll ((laneIdxFrom 1 lanes).map (fun lane =>
              oneline_lane_string env logical_port_name (decide (lanes.length > 1)) dump_dom
                ifdata_blacklist domdata_blacklist lane.1 lane.2 ++ "\n"))))
  ∧ (∀ (env : Platform) (logical_port_name : String) (ganged dump_dom : Bool)
        (ifdata_blacklist domdata_blacklist : List String) (i physical_port : Int),
        env.get_presence physical_port = false →
        oneline_lane_string env logical_port_name ganged dump_dom ifdata_blacklist
          domdata_blacklist i physical_port = "") := by
  constructor
  · intro env L bl1 bl2 dd lanes hres
    simp only [port_eeprom_data_string_pretty_oneline, hres]
    rw [oneline_loop_join env L (decide (lanes.length > 1)) dd bl1 bl2 lanes 1 ""]
    rfl
  · intro env L ganged dd bl1 bl2 i p hp
    simp [oneline_lane_string, presence_gated_eeprom, hp]

theorem C4_witness :
    port_eeprom_data_string_pretty_oneline envTwoAbsent "Ethernet0" [] [] false
      = .ok (concatAll ((laneIdxFrom 1 [1, 2]).map (fun lane =>
          oneline_lane_string envTwoAbsent "Ethernet0" (decide (List.length [1, 2] > 1)) false
            [] [] lane.1 lane.2 ++ "\n")))
  ∧ oneline_lane_string envTwoAbsent "Ethernet0" true false [] [] 1 1 = "" :=
  ⟨C4_oneline_per_lane_amended.1 envTwoAbsent "Ethernet0" [] [] false [1, 2] rfl,
   C4_oneline_per_lane_amended.2 envTwoAbsent "Ethernet0" true false [] [] 1 1 rfl⟩

/-- C8 counterexample: the non-convention identifier `"foo"` is neither
resolved to a one-element lane list nor rejected through the
invalid-port path: `int("foo")` raises an uncaught `ValueError`. -/
theorem C8_counterexample :
    logical_port_name_to_physical_port_list envResolver "foo" = .error .valueError
  ∧ (logical_port_name_to_physical_port_list envResolver "foo").isOk = false :=
  ⟨rfl, rfl⟩

/-- C8 (amended): a port identifier that does not match the `Ethernet`
convention resolves to the one-element list of its integer value when it
is an integer literal and raises `ValueError` otherwise; a
convention-matching identifier unknown to the port table fails with the
invalid-port signal (returns `None`, never a lane list), and a known one
returns the port table's lane list. -/
theorem C8_resolver_amended (env : Platform) (port_name : String) :
    (startswith port_name "Ethernet" = false → ∀ n : Int, pyInt? port_name = some n →
        logical_port_name_to_physical_port_list env port_name = .ok (some [n]))
  ∧ (startswith port_name "Ethernet" = false → pyInt? port_name = none →
        logical_port_name_to_physical_port_list env port_name = .error .valueError)
  ∧ (startswith port_name "Ethernet" = true → env.is_logical_port port_name = false →
        logical_port_name_to_physical_port_list env port_name = .ok none)
  ∧ (startswith port_name "Ethernet" = true → env.is_logical_port port_name = true →
        logical_port_name_to_physical_port_list env port_name
          = .ok (some (env.get_logical_to_physical port_name))) := by
  refine ⟨?_, ?_, ?_, ?_⟩
  · intro hsw n hint
    simp [logical_port_name_to_physical_port_list, hsw, hint]
  · intro hsw hint
    simp [logical_port_name_to_physical_port_list, hsw, hint]
  · intro hsw hlp
    simp [logical_port_name_to_physical_port_list, hsw, hlp]
  · intro hsw hlp
    simp [logical_port_name_to_physical_port_list, hsw, hlp]

theorem C8_witness :
    logical_port_name_to_physical_port_list envResolver "5" = .ok (some [5])
  ∧ logical_port_name_to_physical_port_list envResolver "foo" = .error .valueError
  ∧ logical_port_name_to_physical_port_list envResolver "Ethernet9" = .ok none
  ∧ logical_port_name_to_physical_port_list envResolver "Ethernet0" = .ok (some [7, 8]) :=
  ⟨(C8_resolver_amended envResolver "5").1 (by decide) 5 (by decide),
   (C8_resolver_amended envResolver "foo").2.1 (by decide) (by decide),
   (C8_resolver_amended envResolver "Ethernet9").2.2.1 (by decide) (by decide),
   (C8_resolver_amended envResolver "Ethernet0").2.2.2 (by decide) (by decide)⟩

/-- C10: when the resolver yields an empty lane list the pretty
multi-line renderer returns Python `None` (its only `return` sits inside
the never-entered lane loop), and for any non-empty lane list it returns
a string. -/
theorem C10_pretty_empty_lanes (env : Platform) (logical_port_name : String)
    (dump_dom : Bool) :
    (logical_port_name_to_physical_port_list env logical_port_name = .ok (some []) →
        port_eeprom_data_string_pretty env logical_port_name dump_dom = .ok none)
  ∧ (∀ lanes : List Int,
        logical_port_name_to_physical_port_list env logical_port_name = .ok (some lanes) →
        lanes ≠ [] →
        ∃ s : String,
          port_eeprom_data_string_pretty env logical_port_name dump_dom = .ok (some s)) := by
  constructor
  · intro h
    unfold port_eeprom_data_string_pretty
    rw [h]
    rfl
  · intro lanes h hne
    unfold port_eeprom_data_string_pretty
    rw [h]
    cases lanes with
    | nil => exact absurd rfl hne
    | cons p rest => exact ⟨_, rfl⟩

theorem C10_witness :
    port_eeprom_data_string_pretty envEmptyLanes "Ethernet0" false = .ok none
  ∧ ∃ s : String, port_eeprom_data_string_pretty envEmptyLanes "Ethernet4" false
      = .ok (some s) :=
  ⟨(C10_pretty_empty_lanes envEmptyLanes "Ethernet0" false).1 rfl,
   (C10_pretty_empty_lanes envEmptyLanes "Ethernet4" false).2 [3] rfl (by decide)⟩
